import Mathlib

/-!
Verification development for the nixpkgs/Flathub correlation engine
(`appstream.py`).  The Python code is shallowly embedded: pure string
manipulation is translated to structural functions over `List Char`,
Python `float` confidence values become `ℚ` (only the five discrete
literals 0.6, 0.7, 0.9, 0.95, 1.0 occur, on which ordinal comparison
of IEEE doubles and rationals agree), dict/set state becomes explicit
lists threaded through fold steps, and the stable Timsort of
`list.sort` becomes the stable insertion sort (stable sorts of a total
preorder are extensionally equal).
-/

namespace AppStream

/-- Python `str.lower()` restricted to per-character lowering, as the
identifiers and URLs handled by the tool are ASCII (Lean's
`Char.toLower`, like Python, maps `A`-`Z` to `a`-`z`). -/
def lowerStr (s : String) : String := String.mk (s.data.map Char.toLower)

/-- Python `str.split(sep)` on a character separator: splits at every
occurrence and keeps empty fields (so `"a.b.".split "."` has an empty
last field, and `"".split "."` is `[""]`). -/
def splitChars (sep : Char) : List Char → List (List Char)
  | [] => [[]]
  | c :: cs =>
    let r := splitChars sep cs
    if c = sep then [] :: r
    else
      match r with
      | [] => [[c]]
      | g :: gs => (c :: g) :: gs

/-- Python `s.split(sep)` for a one-character separator. -/
def pySplit (sep : Char) (s : String) : List String :=
  (splitChars sep s.data).map String.mk

/-- Python `sep.join(l)`. -/
def strJoin (sep : String) : List String → String
  | [] => ""
  | [x] => x
  | x :: y :: xs => x ++ sep ++ strJoin sep (y :: xs)

/-- Replace the first element satisfying `p` by `x` (models the Python
`mappings[existing_idx] = new_mapping` after a linear search for the
first index whose element satisfies `p`). -/
def replaceFirst (p : α → Bool) (x : α) : List α → List α
  | [] => []
  | a :: as => if p a then x :: as else a :: replaceFirst p x as

/-- `NixPackage` dataclass (registry package). -/
structure NixPackage where
  attr : String
  pname : String
  version : String
  description : String := ""
  homepage : String := ""
  license : String := ""
  deriving DecidableEq, Repr

/-- `FlathubComponent` dataclass (catalog component); only the fields
the correlation engine and report reader touch are carried. -/
structure FlathubComponent where
  id : String
  name : String
  summary : String := ""
  description : String := ""
  homepage : Option String := none
  deriving DecidableEq, Repr

/-- `AppStreamMapping` dataclass: the engine's output entity. -/
structure AppStreamMapping where
  flathub_id : String
  nixpkgs_attr : String
  nixpkgs_version : String
  confidence : ℚ := 1
  match_reason : String := ""
  deriving DecidableEq, Repr

/-- `CorrelationEngine.GIT_PLATFORMS`: forge domain → identifier
two-segment forge id start. -/
def GIT_PLATFORMS : List (String × String) :=
  [("github", "io.github"), ("gitlab", "io.gitlab"),
   ("codeberg", "org.codeberg"), ("sourceforge", "net.sourceforge"),
   ("bitbucket", "io.bitbucket")]

/-- `CorrelationEngine.GIT_SUBDOMAINS`: (subdomain, domain) → forge id
start. -/
def GIT_SUBDOMAINS : List ((String × String) × String) :=
  [(("gitlab", "gnome"), "org.gnome"),
   (("gitlab", "freedesktop"), "org.freedesktop"),
   (("pages", "srht"), "io.srht")]

/-- Result of the external URL parsing step: `tldextract`'s subdomain
and registered domain together with `urlparse`'s path. -/
structure UrlExtract where
  subdomain : String
  domain : String
  path : String
  deriving DecidableEq, Repr

/-- Modelled from the spec: the Homepage Domain Resolver (§4.2) is the
external `urlparse` + `tldextract` pair, not code of this repository.
Following §4.2 it returns `none` when the URL is empty, unparsable or
has no extractable registered domain, and otherwise the registered
domain, the subdomain (`""` when absent) and the URL path; the model
covers hosts whose public suffix is a single label (`.com`, `.org`,
`.net`, `.io`, …), which is every host the matching rules consult. -/
def extractUrl (homepage : String) : Option UrlExtract :=
  let rest :=
    if ("https://".data).isPrefixOf homepage.data then homepage.data.drop 8
    else if ("http://".data).isPrefixOf homepage.data then homepage.data.drop 7
    else homepage.data
  let host := rest.takeWhile (fun c => c ≠ '/')
  let path := rest.dropWhile (fun c => c ≠ '/')
  let labels := (splitChars '.' host).map String.mk
  if labels.length ≥ 2 ∧ (∀ l ∈ labels, l ≠ "") then
    some { subdomain := strJoin "." (labels.dropLast.dropLast)
           domain := labels.dropLast.getLastD ""
           path := String.mk path }
  else none

instance : DecidablePred (fun labels : List String => labels.length ≥ 2 ∧ (∀ l ∈ labels, l ≠ "")) :=
  fun _ => inferInstanceAs (Decidable (_ ∧ _))

/-- The forge-rule body shared verbatim by the subdomain-table and the
domain-table branches of `_check_homepage_match`: accept when the URL
path's first segment equals the identifier segment right after the
two-segment forge id start, or when the identifier's first two segments
joined with `.` equal that forge id start. -/
def forgeCheck (forgePref : String) (path_parts flathub_parts : List String) : Bool :=
  let userOk :=
    match path_parts with
    | [] => false
    | u :: _ =>
      if flathub_parts.length < 3 then false
      else
        let expected := pySplit '.' forgePref
        (flathub_parts.take expected.length == expected)
          && (expected.length < flathub_parts.length)
          && (flathub_parts.getD expected.length "" == lowerStr u)
  userOk || (strJoin "." (flathub_parts.take 2) == forgePref)

/-- Body of `CorrelationEngine._check_homepage_match` after a
successful URL parse: subdomain-forge table first, then forge-domain
table, then generic domain/subdomain membership in the identifier
segments excluding the last. -/
def checkExtract (ext : UrlExtract) (flathub_parts : List String) : Bool :=
  let path_parts := (pySplit '/' ext.path).filter (fun p => p != "")
  let domain := lowerStr ext.domain
  let subdomain := lowerStr ext.subdomain
  match GIT_SUBDOMAINS.find? (fun e => subdomain == e.1.1 && domain == e.1.2) with
  | some e => forgeCheck e.2 path_parts flathub_parts
  | none =>
    match GIT_PLATFORMS.find? (fun e => domain == e.1) with
    | some e => forgeCheck e.2 path_parts flathub_parts
    | none =>
      (flathub_parts.dropLast.contains domain)
        || (subdomain != "" && subdomain != "www"
              && flathub_parts.dropLast.contains subdomain)

/-- `CorrelationEngine._check_homepage_match`: `False` on an empty
homepage, `False` when the URL parsing raises (the `except` arm),
otherwise the `checkExtract` body. -/
def check_homepage_match (homepage : String) (flathub_parts : List String) : Bool :=
  if homepage == "" then false
  else
    match extractUrl homepage with
    | none => false
    | some ext => checkExtract ext flathub_parts

/-- Descending-by-confidence order used by the Python
`candidates.sort(key=lambda x: -x[1])`. -/
def candLe (x y : NixPackage × ℚ × String) : Prop := y.2.1 ≤ x.2.1

instance : DecidableRel candLe := fun _ _ => inferInstanceAs (Decidable (_ ≤ _))

instance : IsTotal (NixPackage × ℚ × String) candLe :=
  ⟨fun x y => (le_total y.2.1 x.2.1).imp id id⟩

instance : IsTrans (NixPackage × ℚ × String) candLe :=
  ⟨fun _ _ _ h h2 => le_trans h2 h⟩

/-- Candidate list built by `CorrelationEngine._find_best_match`: the
short-name (pname) pass over the name index, then the attribute-name
pass over all registry packages, each skipping already-claimed
attribute names and grading by homepage corroboration. -/
def score_candidates (flathub_parts : List String) (flathub_name : String)
    (nixpkgs_packages : List NixPackage) (matched_attrs : List String) :
    List (NixPackage × ℚ × String) :=
  let pnameCands :=
    (nixpkgs_packages.filter (fun p => lowerStr p.pname == flathub_name)).filterMap
      (fun pkg =>
        if matched_attrs.contains pkg.attr then none
        else if check_homepage_match pkg.homepage flathub_parts then
          some (pkg, mkRat 95 100, "pname \x27" ++ flathub_name ++ "\x27 + homepage match")
        else
          some (pkg, mkRat 7 10, "pname \x27" ++ flathub_name ++ "\x27 match"))
  let attrCands :=
    nixpkgs_packages.filterMap (fun pkg =>
      if matched_attrs.contains pkg.attr then none
      else if lowerStr pkg.attr == flathub_name then
        (if check_homepage_match pkg.homepage flathub_parts then
          some (pkg, mkRat 9 10, "attr \x27" ++ flathub_name ++ "\x27 + homepage match")
        else if lowerStr pkg.pname != flathub_name then
          some (pkg, mkRat 6 10, "attr \x27" ++ flathub_name ++ "\x27 match")
        else none)
      else none)
  pnameCands ++ attrCands

/-- `CorrelationEngine._find_best_match`: stable-sort the candidates by
descending confidence and return the first, `none` when there are no
candidates. -/
def find_best_match (flathub_parts : List String) (flathub_name : String)
    (nixpkgs_packages : List NixPackage) (matched_attrs : List String) :
    Option (NixPackage × ℚ × String) :=
  (List.insertionSort candLe
    (score_candidates flathub_parts flathub_name nixpkgs_packages matched_attrs)).head?

/-- Identifier decomposition performed at the top of the Phase A loop:
`flathub_id.lower().split(".")` (empty segments are kept). -/
def decomposeId (flathub_id : String) : List String := pySplit '.' (lowerStr flathub_id)

/-- The mutable state of `CorrelationEngine.correlate`: the mapping
list and the two claimed-key sets (sets become duplicate-free lists). -/
structure CorrState where
  mappings : List AppStreamMapping
  matchedFlathubIds : List String
  matchedNixAttrs : List String
  deriving DecidableEq, Repr

/-- One iteration of the Phase A loop of
`CorrelationEngine.correlate`: decompose the identifier, skip it when
it has fewer than 2 segments, otherwise take the best candidate, emit
its mapping and claim its attribute name. -/
def phaseA_step (nixpkgs_packages : List NixPackage) (st : CorrState)
    (flathub_id : String) : CorrState :=
  let flathub_parts := decomposeId flathub_id
  if flathub_parts.length < 2 then st
  else
    let flathub_name := flathub_parts.getLastD ""
    match find_best_match flathub_parts flathub_name nixpkgs_packages st.matchedNixAttrs with
    | none => st
    | some (pkg, confidence, reason) =>
      { mappings := st.mappings ++
          [{ flathub_id := flathub_id, nixpkgs_attr := pkg.attr,
             nixpkgs_version := pkg.version, confidence := confidence,
             match_reason := reason }]
        matchedFlathubIds := st.matchedFlathubIds.insert flathub_id
        matchedNixAttrs := st.matchedNixAttrs.insert pkg.attr }

/-- Phase A of `CorrelationEngine.correlate` over the whole component
collection (dict iteration order becomes the list order). -/
def correlatePhaseA (flathub_components : List (String × FlathubComponent))
    (nixpkgs_packages : List NixPackage) : CorrState :=
  flathub_components.foldl (fun st c => phaseA_step nixpkgs_packages st c.1) ⟨[], [], []⟩

/-- One iteration of the Phase B (override) loop of
`CorrelationEngine.correlate`: skip the rule when either side is
absent, otherwise replace the existing mapping for the identifier
(releasing the old attribute claim when it differs) or append a new
mapping, then claim the override's attribute name. -/
def phaseB_step (component_ids : List String) (nixpkgs_packages : List NixPackage)
    (st : CorrState) (rule : String × String) : CorrState :=
  match nixpkgs_packages.find? (fun p => p.attr == rule.2) with
  | none => st
  | some pkg =>
    if component_ids.contains rule.1 = false then st
    else
      let new_mapping : AppStreamMapping :=
        { flathub_id := rule.1, nixpkgs_attr := rule.2,
          nixpkgs_version := pkg.version, confidence := 1,
          match_reason := "override mapping" }
      match st.mappings.find? (fun m => m.flathub_id == rule.1) with
      | some existing =>
        let attrs :=
          if existing.nixpkgs_attr ≠ rule.2 then st.matchedNixAttrs.erase existing.nixpkgs_attr
          else st.matchedNixAttrs
        { mappings := replaceFirst (fun m => m.flathub_id == rule.1) new_mapping st.mappings
          matchedFlathubIds := st.matchedFlathubIds
          matchedNixAttrs := attrs.insert rule.2 }
      | none =>
        { mappings := st.mappings ++ [new_mapping]
          matchedFlathubIds := st.matchedFlathubIds.insert rule.1
          matchedNixAttrs := st.matchedNixAttrs.insert rule.2 }

/-- Phases A and B of `CorrelationEngine.correlate` (the state just
before the final sort). -/
def correlatePhaseB (flathub_components : List (String × FlathubComponent))
    (nixpkgs_packages : List NixPackage)
    (known_mappings : List (String × String)) : CorrState :=
  known_mappings.foldl
    (phaseB_step (flathub_components.map Prod.fst) nixpkgs_packages)
    (correlatePhaseA flathub_components nixpkgs_packages)

/-- Sort key of `mappings.sort(key=lambda m: (-m.confidence, m.flathub_id))`:
confidence descending, then identifier ascending. -/
def mappingLe (a b : AppStreamMapping) : Prop :=
  b.confidence < a.confidence ∨
    (a.confidence = b.confidence ∧ a.flathub_id ≤ b.flathub_id)

instance : DecidableRel mappingLe := fun _ _ => inferInstanceAs (Decidable (_ ∨ _))

instance : IsTotal AppStreamMapping mappingLe := by
  constructor
  intro a b
  rcases lt_trichotomy a.confidence b.confidence with h | h | h
  · exact Or.inr (Or.inl h)
  · rcases le_total a.flathub_id b.flathub_id with h2 | h2
    · exact Or.inl (Or.inr ⟨h, h2⟩)
    · exact Or.inr (Or.inr ⟨h.symm, h2⟩)
  · exact Or.inl (Or.inl h)

instance : IsTrans AppStreamMapping mappingLe := by
  constructor
  rintro a b c (h1 | ⟨e1, s1⟩) (h2 | ⟨e2, s2⟩)
  · exact Or.inl (lt_trans h2 h1)
  · exact Or.inl (e2 ▸ h1)
  · exact Or.inl (e1 ▸ h2)
  · exact Or.inr ⟨e1.trans e2, le_trans s1 s2⟩

/-- The final `mappings.sort(...)` of `CorrelationEngine.correlate`
(Python's stable sort modelled by the stable insertion sort). -/
def sortMappings (mappings : List AppStreamMapping) : List AppStreamMapping :=
  List.insertionSort mappingLe mappings

/-- `CorrelationEngine.correlate`: Phase A over the components, Phase B
over the override rules, then the final sort. -/
def correlate (flathub_components : List (String × FlathubComponent))
    (nixpkgs_packages : List NixPackage)
    (known_mappings : List (String × String)) : List AppStreamMapping :=
  sortMappings (correlatePhaseB flathub_components nixpkgs_packages known_mappings).mappings

/-- The aggregate fields of the report dictionary built by
`AppStreamGenerator.generate_report` (the per-mapping detail list and
the unmapped sample are presentation data carrying no decisions and are
not modelled). -/
structure CorrelationReport where
  total_flathub_components : ℕ
  total_mappings : ℕ
  coverage_percent : ℚ
  by_confidence_override : ℕ
  by_confidence_high : ℕ
  by_confidence_medium : ℕ
  by_confidence_low : ℕ
  deriving DecidableEq, Repr

/-- `AppStreamGenerator.generate_report`: pure aggregation of counts,
coverage percentage and confidence tiers. -/
def generate_report (mappings : List AppStreamMapping)
    (flathub_components : List (String × FlathubComponent)) : CorrelationReport :=
  { total_flathub_components := flathub_components.length
    total_mappings := mappings.length
    coverage_percent :=
      if flathub_components.length = 0 then 0
      else (mappings.length : ℚ) / (flathub_components.length : ℚ) * 100
    by_confidence_override := (mappings.filter (fun m => m.confidence == 1)).length
    by_confidence_high :=
      (mappings.filter (fun m =>
        decide (mkRat 9 10 ≤ m.confidence) && decide (m.confidence < 1))).length
    by_confidence_medium :=
      (mappings.filter (fun m =>
        decide (mkRat 6 10 ≤ m.confidence) && decide (m.confidence < mkRat 9 10))).length
    by_confidence_low := (mappings.filter (fun m => decide (m.confidence < mkRat 6 10))).length }

/-- The four automatic confidence levels. -/
def AutoConf (q : ℚ) : Prop :=
  q = mkRat 95 100 ∨ q = mkRat 7 10 ∨ q = mkRat 9 10 ∨ q = mkRat 6 10

/-- Every confidence in the state is automatic or the override value. -/
def ConfInv (st : CorrState) : Prop :=
  ∀ m ∈ st.mappings, AutoConf m.confidence ∨ m.confidence = 1

/-- Claimed-attribute invariant of Phase A: mapping attribute names are
pairwise distinct and all claimed. -/
def AttrInv (st : CorrState) : Prop :=
  (st.mappings.map (fun m => m.nixpkgs_attr)).Nodup ∧
    ∀ m ∈ st.mappings, m.nixpkgs_attr ∈ st.matchedNixAttrs

/-- The override for identifier `fid` with attribute `attr` has been
applied: a mapping for `fid` exists and every mapping for `fid` is the
override mapping for `attr`. -/
def OverApplied (fid attr : String) (st : CorrState) : Prop :=
  (∃ m ∈ st.mappings, m.flathub_id = fid) ∧
    ∀ m ∈ st.mappings, m.flathub_id = fid →
      m.nixpkgs_attr = attr ∧ m.confidence = 1 ∧ m.match_reason = "override mapping"

/-- Joining character groups with a separator character (list-level
counterpart of `strJoin`). -/
def joinSep (sep : Char) : List (List Char) → List Char
  | [] => []
  | [g] => g
  | g :: g2 :: gs => g ++ sep :: joinSep sep (g2 :: gs)

/-! ### Generic fold and list helper lemmas -/

theorem foldl_induction {α σ : Type _} (step : σ → α → σ) (P : σ → Prop)
    (l : List α) (s : σ) (h0 : P s) (hstep : ∀ s a, a ∈ l → P s → P (step s a)) :
    P (l.foldl step s) := by
  induction l generalizing s with
  | nil => exact h0
  | cons a t ih =>
    exact ih (step s a) (hstep s a (List.mem_cons_self a t) h0)
      (fun s' a' ha' h' => hstep s' a' (List.mem_cons_of_mem a ha') h')

theorem mem_replaceFirst {α : Type _} {p : α → Bool} {x y : α} :
    ∀ {l : List α}, y ∈ replaceFirst p x l → y ∈ l ∨ y = x := by
  intro l
  induction l with
  | nil => intro h; simp [replaceFirst] at h
  | cons a t ih =>
    intro h
    by_cases hp : p a = true
    · simp only [replaceFirst, hp, if_true] at h
      rcases List.mem_cons.mp h with h | h
      · exact Or.inr h
      · exact Or.inl (List.mem_cons_of_mem a h)
    · simp only [replaceFirst, hp, if_false] at h
      rcases List.mem_cons.mp h with h | h
      · exact Or.inl (h ▸ List.mem_cons_self a t)
      · rcases ih h with h | h
        · exact Or.inl (List.mem_cons_of_mem a h)
        · exact Or.inr h

theorem mem_replaceFirst_of_not {α : Type _} {p : α → Bool} {x y : α}
    (hy : p y = false) : ∀ {l : List α}, y ∈ l → y ∈ replaceFirst p x l := by
  intro l
  induction l with
  | nil => intro h; simp at h
  | cons a t ih =>
    intro h
    by_cases hp : p a = true
    · simp only [replaceFirst, hp, if_true]
      rcases List.mem_cons.mp h with h | h
      · exact absurd (h ▸ hp) (by simp [hy])
      · exact List.mem_cons_of_mem x h
    · simp only [replaceFirst, hp, if_false]
      rcases List.mem_cons.mp h with h | h
      · exact h ▸ List.mem_cons_self a _
      · exact List.mem_cons_of_mem a (ih h)

theorem self_mem_replaceFirst {α : Type _} {p : α → Bool} {x : α} :
    ∀ {l : List α}, (∃ a ∈ l, p a = true) → x ∈ replaceFirst p x l := by
  intro l
  induction l with
  | nil => rintro ⟨a, ha, _⟩; simp at ha
  | cons a t ih =>
    rintro ⟨b, hb, hpb⟩
    by_cases hp : p a = true
    · simp only [replaceFirst, hp, if_true]
      exact List.mem_cons_self x t
    · simp only [replaceFirst, hp, if_false]
      rcases List.mem_cons.mp hb with h | h
      · exact absurd (h ▸ hpb) hp
      · exact List.mem_cons_of_mem a (ih ⟨b, h, hpb⟩)

theorem replaceFirst_map_eq {α β : Type _} {p : α → Bool} {x : α} {f : α → β}
    (hx : ∀ a, p a = true → f a = f x) :
    ∀ (l : List α), (replaceFirst p x l).map f = l.map f := by
  intro l
  induction l with
  | nil => rfl
  | cons a t ih =>
    by_cases hp : p a = true
    · simp only [replaceFirst, hp, if_true, List.map_cons, hx a hp]
    · simp only [replaceFirst, hp, Bool.false_eq_true, if_false, List.map_cons, ih]

theorem filter_replaceFirst_sublist {α : Type _} {p q : α → Bool} {x : α}
    (hx : q x = false) :
    ∀ (l : List α), ((replaceFirst p x l).filter q).Sublist (l.filter q) := by
  intro l
  induction l with
  | nil => simp [replaceFirst]
  | cons a t ih =>
    by_cases hp : p a = true
    · simp only [replaceFirst, hp, if_true, List.filter_cons, hx]
      by_cases hq : q a = true
      · simp only [hq, if_true]
        exact List.Sublist.cons a (List.Sublist.refl _)
      · simp only [hq, if_false]
        simp only [Bool.false_eq_true, if_false]
        exact List.Sublist.refl _
    · simp only [replaceFirst, hp, Bool.false_eq_true, if_false, List.filter_cons]
      by_cases hq : q a = true
      · simp only [hq, if_true]
        exact List.Sublist.cons₂ a (ih)
      · simp only [hq]
        simp only [Bool.false_eq_true, if_false]
        exact ih

theorem replaceFirst_eq_of_unique {α : Type _} {f : α → String} {k : String} {x : α} :
    ∀ (l : List α), ((l.map f).Nodup) →
      ∀ y ∈ replaceFirst (fun a => f a == k) x l, f y = k → y = x := by
  intro l
  induction l with
  | nil => intro _ y hy; simp [replaceFirst] at hy
  | cons a t ih =>
    intro hnd y hy hfy
    by_cases hp : (f a == k) = true
    · simp only [replaceFirst, hp, if_true] at hy
      rcases List.mem_cons.mp hy with h | h
      · exact h
      · exfalso
        have ha : f a = k := by simpa using hp
        have : f a ∉ t.map f := (List.nodup_cons.mp (by simpa using hnd)).1
        exact this (ha ▸ hfy ▸ List.mem_map_of_mem f h)
    · simp only [replaceFirst, hp, if_false] at hy
      rcases List.mem_cons.mp hy with h | h
      · exact absurd (by simpa using (h ▸ hfy : f a = k)) (by simpa using hp)
      · exact ih (List.nodup_cons.mp (by simpa using hnd)).2 y h hfy

/-! ### Properties of the candidate scorer -/

/-- Any result of `find_best_match` is one of the scored candidates. -/
theorem find_best_match_mem {flathub_parts : List String} {flathub_name : String}
    {nixpkgs_packages : List NixPackage} {matched_attrs : List String}
    {c : NixPackage × ℚ × String}
    (h : find_best_match flathub_parts flathub_name nixpkgs_packages matched_attrs = some c) :
    c ∈ score_candidates flathub_parts flathub_name nixpkgs_packages matched_attrs := by
  unfold find_best_match at h
  have hmem : c ∈ List.insertionSort candLe
      (score_candidates flathub_parts flathub_name nixpkgs_packages matched_attrs) :=
    List.mem_of_mem_head? (by simp [h])
  exact (List.perm_insertionSort candLe _).subset hmem

/-- Every scored candidate has an unclaimed attribute name and one of
the four automatic confidence levels. -/
theorem score_candidates_spec {flathub_parts : List String} {flathub_name : String}
    {nixpkgs_packages : List NixPackage} {matched_attrs : List String}
    {c : NixPackage × ℚ × String}
    (h : c ∈ score_candidates flathub_parts flathub_name nixpkgs_packages matched_attrs) :
    c.1.attr ∉ matched_attrs ∧
      (c.2.1 = mkRat 95 100 ∨ c.2.1 = mkRat 7 10 ∨ c.2.1 = mkRat 9 10 ∨
        c.2.1 = mkRat 6 10) := by
  unfold score_candidates at h
  rcases List.mem_append.mp h with h | h
  · rcases List.mem_filterMap.mp h with ⟨pkg, _, hf⟩
    by_cases h1 : matched_attrs.contains pkg.attr = true
    · rw [if_pos h1] at hf
      exact Option.noConfusion hf
    · rw [if_neg h1] at hf
      have hnm : pkg.attr ∉ matched_attrs := by simpa using h1
      by_cases h2 : check_homepage_match pkg.homepage flathub_parts = true
      · rw [if_pos h2] at hf
        injection hf with hf
        subst hf
        exact ⟨hnm, Or.inl rfl⟩
      · rw [if_neg h2] at hf
        injection hf with hf
        subst hf
        exact ⟨hnm, Or.inr (Or.inl rfl)⟩
  · rcases List.mem_filterMap.mp h with ⟨pkg, _, hf⟩
    by_cases h1 : matched_attrs.contains pkg.attr = true
    · rw [if_pos h1] at hf
      exact Option.noConfusion hf
    · rw [if_neg h1] at hf
      have hnm : pkg.attr ∉ matched_attrs := by simpa using h1
      by_cases h2 : (lowerStr pkg.attr == flathub_name) = true
      · rw [if_pos h2] at hf
        by_cases h3 : check_homepage_match pkg.homepage flathub_parts = true
        · rw [if_pos h3] at hf
          injection hf with hf
          subst hf
          exact ⟨hnm, Or.inr (Or.inr (Or.inl rfl))⟩
        · rw [if_neg h3] at hf
          by_cases h4 : (lowerStr pkg.pname != flathub_name) = true
          · rw [if_pos h4] at hf
            injection hf with hf
            subst hf
            exact ⟨hnm, Or.inr (Or.inr (Or.inr rfl))⟩
          · rw [if_neg h4] at hf
            exact Option.noConfusion hf
      · rw [if_neg h2] at hf
        exact Option.noConfusion hf

/-- Shape of a Phase A iteration: either the state is untouched, or
exactly one mapping for the processed identifier is appended and its
attribute name claimed. -/
theorem phaseA_step_shape (nixpkgs_packages : List NixPackage) (st : CorrState)
    (flathub_id : String) :
    phaseA_step nixpkgs_packages st flathub_id = st ∨
    ∃ pkg conf reason,
      find_best_match (decomposeId flathub_id) ((decomposeId flathub_id).getLastD "")
        nixpkgs_packages st.matchedNixAttrs = some (pkg, conf, reason) ∧
      phaseA_step nixpkgs_packages st flathub_id =
        { mappings := st.mappings ++
            [{ flathub_id := flathub_id, nixpkgs_attr := pkg.attr,
               nixpkgs_version := pkg.version, confidence := conf,
               match_reason := reason }]
          matchedFlathubIds := st.matchedFlathubIds.insert flathub_id
          matchedNixAttrs := st.matchedNixAttrs.insert pkg.attr } := by
  unfold phaseA_step
  by_cases hlen : (decomposeId flathub_id).length < 2
  · simp [hlen]
  · simp only [hlen, if_false]
    rcases hf : find_best_match (decomposeId flathub_id)
        ((decomposeId flathub_id).getLastD "") nixpkgs_packages st.matchedNixAttrs with
      _ | ⟨pkg, conf, reason⟩
    · exact Or.inl rfl
    · exact Or.inr ⟨pkg, conf, reason, rfl, rfl⟩

/-! ### Phase A invariants -/

theorem phaseA_step_conf {nixpkgs_packages : List NixPackage} {st : CorrState}
    {flathub_id : String} (h : ConfInv st) :
    ConfInv (phaseA_step nixpkgs_packages st flathub_id) := by
  rcases phaseA_step_shape nixpkgs_packages st flathub_id with hs | ⟨pkg, conf, reason, hf, hs⟩
  · rw [hs]; exact h
  · rw [hs]
    intro m hm
    rcases List.mem_append.mp hm with hm | hm
    · exact h m hm
    · have hmeq : m = ⟨flathub_id, pkg.attr, pkg.version, conf, reason⟩ := by
        simpa using hm
      subst hmeq
      exact Or.inl (score_candidates_spec (find_best_match_mem hf)).2

theorem phaseA_step_attrInv {nixpkgs_packages : List NixPackage} {st : CorrState}
    {flathub_id : String} (h : AttrInv st) :
    AttrInv (phaseA_step nixpkgs_packages st flathub_id) := by
  rcases phaseA_step_shape nixpkgs_packages st flathub_id with hs | ⟨pkg, conf, reason, hf, hs⟩
  · rw [hs]; exact h
  · rw [hs]
    have hfresh : pkg.attr ∉ st.matchedNixAttrs :=
      (score_candidates_spec (find_best_match_mem hf)).1
    constructor
    · rw [List.map_append]
      refine List.nodup_append.mpr ⟨h.1, by simp, ?_⟩
      intro a ha hsing
      have ha' : a = pkg.attr := by simpa using hsing
      subst ha'
      rcases List.mem_map.mp ha with ⟨m, hm, hma⟩
      exact hfresh (hma ▸ h.2 m hm)
    · intro m hm
      rcases List.mem_append.mp hm with hm | hm
      · exact List.mem_insert_iff.mpr (Or.inr (h.2 m hm))
      · have hmeq : m = ⟨flathub_id, pkg.attr, pkg.version, conf, reason⟩ := by
          simpa using hm
        subst hmeq
        exact List.mem_insert_iff.mpr (Or.inl rfl)

theorem phaseA_fold_ids (nixpkgs_packages : List NixPackage) :
    ∀ (comps : List (String × FlathubComponent)) (st : CorrState),
      (comps.map Prod.fst).Nodup →
      ((st.mappings.map (fun m => m.flathub_id)).Nodup) →
      (∀ m ∈ st.mappings, m.flathub_id ∉ comps.map Prod.fst) →
      (((comps.foldl (fun s c => phaseA_step nixpkgs_packages s c.1) st).mappings.map
        (fun m => m.flathub_id)).Nodup) := by
  intro comps
  induction comps with
  | nil => intro st _ h2 _; exact h2
  | cons c t ih =>
    intro st hnd hids hnotin
    rw [List.map_cons] at hnd
    rw [List.foldl_cons]
    refine ih (phaseA_step nixpkgs_packages st c.1)
      (List.nodup_cons.mp hnd).2 ?_ ?_
    · rcases phaseA_step_shape nixpkgs_packages st c.1 with hs | ⟨pkg, conf, reason, _, hs⟩
      · rw [hs]; exact hids
      · rw [hs, List.map_append]
        refine List.nodup_append.mpr ⟨hids, by simp, ?_⟩
        intro a ha hsing
        have ha' : a = c.1 := by simpa using hsing
        subst ha'
        rcases List.mem_map.mp ha with ⟨m, hm, hma⟩
        exact hnotin m hm (by rw [List.map_cons, hma]; exact List.mem_cons_self _ _)
    · intro m hm
      rcases phaseA_step_shape nixpkgs_packages st c.1 with hs | ⟨pkg, conf, reason, _, hs⟩
      · rw [hs] at hm
        exact fun hmem => hnotin m hm (by rw [List.map_cons]; exact List.mem_cons_of_mem _ hmem)
      · rw [hs] at hm
        rcases List.mem_append.mp hm with hm | hm
        · exact fun hmem =>
            hnotin m hm (by rw [List.map_cons]; exact List.mem_cons_of_mem _ hmem)
        · have hmeq : m = ⟨c.1, pkg.attr, pkg.version, conf, reason⟩ := by
            simpa using hm
          subst hmeq
          exact (List.nodup_cons.mp hnd).1

/-! ### Phase B step lemmas -/

/-- Shape of a Phase B iteration: skip, in-place replacement of the
first (only) mapping for the identifier, or append of a fresh override
mapping. -/
theorem phaseB_step_shape (component_ids : List String) (nixpkgs_packages : List NixPackage)
    (st : CorrState) (rule : String × String) :
    phaseB_step component_ids nixpkgs_packages st rule = st ∨
    ∃ pkg, nixpkgs_packages.find? (fun p => p.attr == rule.2) = some pkg ∧
      component_ids.contains rule.1 = true ∧
      ((∃ existing,
          st.mappings.find? (fun m => m.flathub_id == rule.1) = some existing ∧
          phaseB_step component_ids nixpkgs_packages st rule =
            ⟨replaceFirst (fun m => m.flathub_id == rule.1)
                ⟨rule.1, rule.2, pkg.version, 1, "override mapping"⟩ st.mappings,
              st.matchedFlathubIds,
              (if existing.nixpkgs_attr ≠ rule.2 then
                  st.matchedNixAttrs.erase existing.nixpkgs_attr
                else st.matchedNixAttrs).insert rule.2⟩) ∨
        (st.mappings.find? (fun m => m.flathub_id == rule.1) = none ∧
          phaseB_step component_ids nixpkgs_packages st rule =
            ⟨st.mappings ++ [⟨rule.1, rule.2, pkg.version, 1, "override mapping"⟩],
              st.matchedFlathubIds.insert rule.1,
              st.matchedNixAttrs.insert rule.2⟩)) := by
  rcases hp : nixpkgs_packages.find? (fun p => p.attr == rule.2) with _ | pkg
  · left
    unfold phaseB_step
    rw [hp]
  · by_cases hc : component_ids.contains rule.1 = false
    · left
      unfold phaseB_step
      simp only [hp]
      rw [if_pos hc]
    · have hc' : component_ids.contains rule.1 = true := by
        cases h : component_ids.contains rule.1
        · exact absurd h hc
        · rfl
      rcases he : st.mappings.find? (fun m => m.flathub_id == rule.1) with _ | existing
      · refine Or.inr ⟨pkg, hp, hc', Or.inr ⟨he, ?_⟩⟩
        unfold phaseB_step
        simp only [hp]
        rw [if_neg hc]
        simp only [he]
      · refine Or.inr ⟨pkg, hp, hc', Or.inl ⟨existing, he, ?_⟩⟩
        unfold phaseB_step
        simp only [hp]
        rw [if_neg hc]
        simp only [he]

theorem phaseB_step_ids_nodup {component_ids : List String}
    {nixpkgs_packages : List NixPackage} {st : CorrState} {rule : String × String}
    (h : (st.mappings.map (fun m => m.flathub_id)).Nodup) :
    (((phaseB_step component_ids nixpkgs_packages st rule).mappings.map
      (fun m => m.flathub_id)).Nodup) := by
  rcases phaseB_step_shape component_ids nixpkgs_packages st rule with
    hs | ⟨pkg, _, _, ⟨existing, hfind, hs⟩ | ⟨hfind, hs⟩⟩
  · rw [hs]; exact h
  · rw [hs]
    have hmap : (replaceFirst (fun m => m.flathub_id == rule.1)
        (⟨rule.1, rule.2, pkg.version, 1, "override mapping"⟩ : AppStreamMapping)
        st.mappings).map (fun m => m.flathub_id) =
          st.mappings.map (fun m => m.flathub_id) :=
      replaceFirst_map_eq (fun a ha => by simpa using ha) _
    exact hmap ▸ h
  · rw [hs]
    rw [List.map_append]
    refine List.nodup_append.mpr ⟨h, by simp, ?_⟩
    intro a ha hsing
    have ha' : a = rule.1 := by simpa using hsing
    subst ha'
    rcases List.mem_map.mp ha with ⟨m, hm, hma⟩
    have hnone := List.find?_eq_none.mp hfind m hm
    simp [hma] at hnone

theorem phaseB_step_conf {component_ids : List String}
    {nixpkgs_packages : List NixPackage} {st : CorrState} {rule : String × String}
    (h : ConfInv st) :
    ConfInv (phaseB_step component_ids nixpkgs_packages st rule) := by
  rcases phaseB_step_shape component_ids nixpkgs_packages st rule with
    hs | ⟨pkg, _, _, ⟨existing, hfind, hs⟩ | ⟨hfind, hs⟩⟩
  · rw [hs]; exact h
  · rw [hs]
    intro m hm
    rcases mem_replaceFirst hm with hm | hm
    · exact h m hm
    · subst hm; exact Or.inr rfl
  · rw [hs]
    intro m hm
    rcases List.mem_append.mp hm with hm | hm
    · exact h m hm
    · have hmeq : m = ⟨rule.1, rule.2, pkg.version, 1, "override mapping"⟩ := by
        simpa using hm
      subst hmeq
      exact Or.inr rfl

theorem phaseB_step_nonoverride_sublist {component_ids : List String}
    {nixpkgs_packages : List NixPackage} {st : CorrState} {rule : String × String} :
    ((((phaseB_step component_ids nixpkgs_packages st rule).mappings.filter
        (fun m => m.match_reason != "override mapping")).map
      (fun m => m.nixpkgs_attr)).Sublist
      ((st.mappings.filter (fun m => m.match_reason != "override mapping")).map
        (fun m => m.nixpkgs_attr))) := by
  rcases phaseB_step_shape component_ids nixpkgs_packages st rule with
    hs | ⟨pkg, _, _, ⟨existing, hfind, hs⟩ | ⟨hfind, hs⟩⟩
  · rw [hs]
  · rw [hs]
    exact (filter_replaceFirst_sublist (by simp) st.mappings).map _
  · rw [hs]
    rw [List.filter_append]
    have hnil : List.filter (fun m => m.match_reason != "override mapping")
        [(⟨rule.1, rule.2, pkg.version, 1, "override mapping"⟩ : AppStreamMapping)] = [] := by
      simp
    rw [hnil, List.append_nil]

/-! ### Fold-level invariants and sort transfer -/

theorem correlatePhaseA_attrInv (flathub_components : List (String × FlathubComponent))
    (nixpkgs_packages : List NixPackage) :
    AttrInv (correlatePhaseA flathub_components nixpkgs_packages) :=
  foldl_induction _ AttrInv flathub_components ⟨[], [], []⟩
    ⟨by simp, by simp⟩ (fun _ _ _ h => phaseA_step_attrInv h)

theorem correlatePhaseA_conf (flathub_components : List (String × FlathubComponent))
    (nixpkgs_packages : List NixPackage) :
    ConfInv (correlatePhaseA flathub_components nixpkgs_packages) :=
  foldl_induction _ ConfInv flathub_components ⟨[], [], []⟩
    (by intro m hm; simp at hm) (fun _ _ _ h => phaseA_step_conf h)

theorem correlatePhaseB_conf (flathub_components : List (String × FlathubComponent))
    (nixpkgs_packages : List NixPackage) (known_mappings : List (String × String)) :
    ConfInv (correlatePhaseB flathub_components nixpkgs_packages known_mappings) :=
  foldl_induction _ ConfInv known_mappings
    (correlatePhaseA flathub_components nixpkgs_packages)
    (correlatePhaseA_conf flathub_components nixpkgs_packages)
    (fun _ _ _ h => phaseB_step_conf h)

theorem correlatePhaseA_ids (flathub_components : List (String × FlathubComponent))
    (nixpkgs_packages : List NixPackage)
    (h : (flathub_components.map Prod.fst).Nodup) :
    (((correlatePhaseA flathub_components nixpkgs_packages).mappings.map
      (fun m => m.flathub_id)).Nodup) :=
  phaseA_fold_ids nixpkgs_packages flathub_components ⟨[], [], []⟩ h (by simp) (by simp)

theorem correlatePhaseB_ids (flathub_components : List (String × FlathubComponent))
    (nixpkgs_packages : List NixPackage) (known_mappings : List (String × String))
    (h : (flathub_components.map Prod.fst).Nodup) :
    (((correlatePhaseB flathub_components nixpkgs_packages known_mappings).mappings.map
      (fun m => m.flathub_id)).Nodup) :=
  foldl_induction _ (fun st => (st.mappings.map (fun m => m.flathub_id)).Nodup)
    known_mappings (correlatePhaseA flathub_components nixpkgs_packages)
    (correlatePhaseA_ids flathub_components nixpkgs_packages h)
    (fun _ _ _ hh => phaseB_step_ids_nodup hh)

theorem correlatePhaseB_nonoverride (flathub_components : List (String × FlathubComponent))
    (nixpkgs_packages : List NixPackage) (known_mappings : List (String × String)) :
    ((((correlatePhaseB flathub_components nixpkgs_packages known_mappings).mappings.filter
        (fun m => m.match_reason != "override mapping")).map
      (fun m => m.nixpkgs_attr)).Sublist
      (((correlatePhaseA flathub_components nixpkgs_packages).mappings.filter
          (fun m => m.match_reason != "override mapping")).map
        (fun m => m.nixpkgs_attr))) :=
  foldl_induction _
    (fun st => ((st.mappings.filter (fun m => m.match_reason != "override mapping")).map
        (fun m => m.nixpkgs_attr)).Sublist
      (((correlatePhaseA flathub_components nixpkgs_packages).mappings.filter
          (fun m => m.match_reason != "override mapping")).map
        (fun m => m.nixpkgs_attr)))
    known_mappings (correlatePhaseA flathub_components nixpkgs_packages)
    (List.Sublist.refl _)
    (fun _ _ _ h => List.Sublist.trans phaseB_step_nonoverride_sublist h)

theorem sortMappings_perm (l : List AppStreamMapping) : (sortMappings l).Perm l :=
  List.perm_insertionSort mappingLe l

/-! ### Split and join lemmas for the identifier decomposition -/

theorem splitChars_ne_nil (sep : Char) : ∀ cs : List Char, splitChars sep cs ≠ [] := by
  intro cs
  cases cs with
  | nil => simp [splitChars]
  | cons c cs =>
    simp only [splitChars]
    split
    · simp
    · split <;> simp

theorem joinSep_splitChars (sep : Char) :
    ∀ cs : List Char, joinSep sep (splitChars sep cs) = cs := by
  intro cs
  induction cs with
  | nil => rfl
  | cons c cs ih =>
    simp only [splitChars]
    by_cases h : c = sep
    · rw [if_pos h]
      rcases hr : splitChars sep cs with _ | ⟨g, gs⟩
      · exact absurd hr (splitChars_ne_nil sep cs)
      · rw [hr] at ih
        simp only [joinSep, List.nil_append]
        rw [ih, h]
    · rw [if_neg h]
      rcases hr : splitChars sep cs with _ | ⟨g, gs⟩
      · exact absurd hr (splitChars_ne_nil sep cs)
      · rw [hr] at ih
        simp only [hr]
        cases gs with
        | nil =>
          simp only [joinSep] at ih ⊢
          rw [ih]
        | cons g2 gs2 =>
          simp only [joinSep] at ih ⊢
          rw [List.cons_append, ih]

theorem strJoin_mk (sep : Char) :
    ∀ gs : List (List Char), gs ≠ [] →
      (strJoin (String.mk [sep]) (gs.map String.mk)).data = joinSep sep gs := by
  intro gs
  induction gs with
  | nil => intro h; exact absurd rfl h
  | cons g t ih =>
    intro _
    cases t with
    | nil => rfl
    | cons g2 t2 =>
      simp only [List.map_cons, strJoin]
      rw [String.data_append, String.data_append]
      have ih' := ih (by simp)
      simp only [List.map_cons] at ih'
      rw [ih']
      show g ++ [sep] ++ joinSep sep (g2 :: t2) = joinSep sep (g :: g2 :: t2)
      simp only [joinSep, List.append_assoc, List.singleton_append]

/-! ### Override application lemmas -/

theorem stepB_establish {component_ids : List String} {nixpkgs_packages : List NixPackage}
    {st : CorrState} {fid attr : String}
    (hnd : (st.mappings.map (fun m => m.flathub_id)).Nodup)
    (hc : component_ids.contains fid = true)
    (hp : ∃ p ∈ nixpkgs_packages, p.attr = attr) :
    OverApplied fid attr (phaseB_step component_ids nixpkgs_packages st (fid, attr)) := by
  have hsome : (nixpkgs_packages.find? (fun p => p.attr == attr)).isSome := by
    refine List.find?_isSome.mpr ?_
    obtain ⟨p, hp1, hp2⟩ := hp
    exact ⟨p, hp1, by simp [hp2]⟩
  obtain ⟨pkg0, hfind⟩ := Option.isSome_iff_exists.mp hsome
  have hcm : fid ∈ component_ids := by simpa using hc
  unfold phaseB_step
  simp only [hfind]
  rw [if_neg (by simp [hcm])]
  rcases he : st.mappings.find? (fun m => m.flathub_id == fid) with _ | existing
  · simp only [he]
    constructor
    · exact ⟨⟨fid, attr, pkg0.version, 1, "override mapping"⟩, by simp, rfl⟩
    · intro m hm hfid
      rcases List.mem_append.mp hm with hm | hm
      · exfalso
        have := List.find?_eq_none.mp he m hm
        simp [hfid] at this
      · have hmeq : m = ⟨fid, attr, pkg0.version, 1, "override mapping"⟩ := by
          simpa using hm
        subst hmeq
        exact ⟨rfl, rfl, rfl⟩
  · simp only [he]
    constructor
    · have hpe := List.find?_some he
      exact ⟨⟨fid, attr, pkg0.version, 1, "override mapping"⟩,
        self_mem_replaceFirst ⟨existing, List.mem_of_find?_eq_some he, hpe⟩, rfl⟩
    · intro m hm hfid
      have hmeq := replaceFirst_eq_of_unique (f := fun m => m.flathub_id)
        st.mappings hnd m hm hfid
      subst hmeq
      exact ⟨rfl, rfl, rfl⟩

theorem stepB_preserve {component_ids : List String} {nixpkgs_packages : List NixPackage}
    {st : CorrState} {rule : String × String} {fid attr : String}
    (hne : rule.1 ≠ fid) (h : OverApplied fid attr st) :
    OverApplied fid attr (phaseB_step component_ids nixpkgs_packages st rule) := by
  rcases phaseB_step_shape component_ids nixpkgs_packages st rule with
    hs | ⟨pkg, _, _, ⟨existing, hfindm, hs⟩ | ⟨hfindm, hs⟩⟩
  · rw [hs]; exact h
  · rw [hs]
    obtain ⟨⟨m0, hm0, hfid0⟩, hall⟩ := h
    constructor
    · refine ⟨m0, mem_replaceFirst_of_not ?_ hm0, hfid0⟩
      simp only [hfid0]
      simpa using Ne.symm hne
    · intro m hm hfid
      rcases mem_replaceFirst hm with hm | hmeq
      · exact hall m hm hfid
      · subst hmeq
        exact absurd hfid hne
  · rw [hs]
    obtain ⟨⟨m0, hm0, hfid0⟩, hall⟩ := h
    refine ⟨⟨m0, List.mem_append.mpr (Or.inl hm0), hfid0⟩, ?_⟩
    intro m hm hfid
    rcases List.mem_append.mp hm with hm | hm
    · exact hall m hm hfid
    · have hmeq : m = ⟨rule.1, rule.2, pkg.version, 1, "override mapping"⟩ := by
        simpa using hm
      subst hmeq
      exact absurd hfid hne

theorem foldB_overApplied (component_ids : List String) (nixpkgs_packages : List NixPackage) :
    ∀ (rules : List (String × String)) (st : CorrState) (fid attr : String),
      (rules.map Prod.fst).Nodup →
      (fid, attr) ∈ rules →
      (st.mappings.map (fun m => m.flathub_id)).Nodup →
      component_ids.contains fid = true →
      (∃ p ∈ nixpkgs_packages, p.attr = attr) →
      OverApplied fid attr
        (rules.foldl (phaseB_step component_ids nixpkgs_packages) st) := by
  intro rules
  induction rules with
  | nil => intro st fid attr _ hmem; simp at hmem
  | cons r t ih =>
    intro st fid attr hnd hmem hids hc hp
    rw [List.map_cons] at hnd
    rw [List.foldl_cons]
    by_cases hr : r.1 = fid
    · have hreq : r = (fid, attr) := by
        rcases List.mem_cons.mp hmem with h | h
        · exact h.symm
        · exfalso
          have hin : fid ∈ t.map Prod.fst := List.mem_map.mpr ⟨(fid, attr), h, rfl⟩
          exact (List.nodup_cons.mp hnd).1 (hr ▸ hin)
      subst hreq
      refine foldl_induction _ (OverApplied fid attr) t _
        (stepB_establish hids hc hp) ?_
      intro s a ha hOA
      have hane : a.1 ≠ fid := by
        intro he
        exact (List.nodup_cons.mp hnd).1 (he ▸ List.mem_map.mpr ⟨a, ha, rfl⟩)
      exact stepB_preserve hane hOA
    · have hmem' : (fid, attr) ∈ t := by
        rcases List.mem_cons.mp hmem with h | h
        · exact absurd (congrArg Prod.fst h).symm hr
        · exact h
      exact ih (phaseB_step component_ids nixpkgs_packages st r) fid attr
        (List.nodup_cons.mp hnd).2 hmem' (phaseB_step_ids_nodup hids) hc hp

/-! ### Claim theorems -/

/-- C2: attribute-name uniqueness among automatic mappings — in the
final output of a correlation run, the registry attribute names of the
mappings whose match reason is not "override mapping" are pairwise
distinct. -/
theorem automatic_attr_names_unique
    (flathub_components : List (String × FlathubComponent))
    (nixpkgs_packages : List NixPackage) (known_mappings : List (String × String)) :
    (((correlate flathub_components nixpkgs_packages known_mappings).filter
        (fun m => m.match_reason != "override mapping")).map
      (fun m => m.nixpkgs_attr)).Nodup := by
  have hA : (((correlatePhaseA flathub_components nixpkgs_packages).mappings.filter
      (fun m => m.match_reason != "override mapping")).map
        (fun m => m.nixpkgs_attr)).Nodup :=
    ((correlatePhaseA_attrInv flathub_components nixpkgs_packages).1).sublist
      ((List.filter_sublist _).map _)
  have hB := hA.sublist
    (correlatePhaseB_nonoverride flathub_components nixpkgs_packages known_mappings)
  have hperm :=
    ((sortMappings_perm
        (correlatePhaseB flathub_components nixpkgs_packages known_mappings).mappings).filter
      (fun m => m.match_reason != "override mapping")).map (fun m => m.nixpkgs_attr)
  unfold correlate
  exact hperm.nodup_iff.mpr hB

/-- C3: at-most-one-per-identifier — given distinct catalog identifiers
in the input (dict keys), the Phase A mapping list and the final
correlation output each contain at most one mapping per catalog
identifier. -/
theorem at_most_one_mapping_per_identifier
    (flathub_components : List (String × FlathubComponent))
    (nixpkgs_packages : List NixPackage) (known_mappings : List (String × String))
    (hkeys : (flathub_components.map Prod.fst).Nodup) :
    (((correlatePhaseA flathub_components nixpkgs_packages).mappings.map
        (fun m => m.flathub_id)).Nodup) ∧
    (((correlate flathub_components nixpkgs_packages known_mappings).map
        (fun m => m.flathub_id)).Nodup) := by
  refine ⟨correlatePhaseA_ids _ _ hkeys, ?_⟩
  have hB := correlatePhaseB_ids flathub_components nixpkgs_packages known_mappings hkeys
  have hperm := (sortMappings_perm
      (correlatePhaseB flathub_components nixpkgs_packages known_mappings).mappings).map
    (fun m => m.flathub_id)
  unfold correlate
  exact hperm.nodup_iff.mpr hB

/-- C5: confidence bounds — every mapping of the final output has
confidence 0.6, 0.7, 0.9, 0.95 or 1.0; in particular each confidence
is 1.0 or lies in the interval from 0.6 to 0.95. -/
theorem confidence_bounds
    (flathub_components : List (String × FlathubComponent))
    (nixpkgs_packages : List NixPackage) (known_mappings : List (String × String))
    (m : AppStreamMapping)
    (hm : m ∈ correlate flathub_components nixpkgs_packages known_mappings) :
    (m.confidence = mkRat 6 10 ∨ m.confidence = mkRat 7 10 ∨ m.confidence = mkRat 9 10 ∨
      m.confidence = mkRat 95 100 ∨ m.confidence = 1) ∧
    (m.confidence = 1 ∨ (mkRat 6 10 ≤ m.confidence ∧ m.confidence ≤ mkRat 95 100)) := by
  have hmem : m ∈ (correlatePhaseB flathub_components nixpkgs_packages
      known_mappings).mappings :=
    (sortMappings_perm _).subset hm
  have hc := correlatePhaseB_conf flathub_components nixpkgs_packages known_mappings m hmem
  constructor
  · rcases hc with (h | h | h | h) | h
    · exact Or.inr (Or.inr (Or.inr (Or.inl h)))
    · exact Or.inr (Or.inl h)
    · exact Or.inr (Or.inr (Or.inl h))
    · exact Or.inl h
    · exact Or.inr (Or.inr (Or.inr (Or.inr h)))
  · rcases hc with (h | h | h | h) | h
    · exact Or.inr ⟨by rw [h]; decide, by rw [h]⟩
    · exact Or.inr ⟨by rw [h]; decide, by rw [h]; decide⟩
    · exact Or.inr ⟨by rw [h]; decide, by rw [h]; decide⟩
    · exact Or.inr ⟨by rw [h], by rw [h]; decide⟩
    · exact Or.inl h

/-- C7: ranking order and idempotence — in the final output, each
mapping's confidence is at least its successor's and ties are broken by
ascending catalog identifier, and re-applying the final sort leaves the
output unchanged. -/
theorem ranking_order_and_idempotence
    (flathub_components : List (String × FlathubComponent))
    (nixpkgs_packages : List NixPackage) (known_mappings : List (String × String)) :
    List.Chain'
      (fun a b => b.confidence ≤ a.confidence ∧
        (a.confidence = b.confidence → a.flathub_id ≤ b.flathub_id))
      (correlate flathub_components nixpkgs_packages known_mappings) ∧
    sortMappings (correlate flathub_components nixpkgs_packages known_mappings) =
      correlate flathub_components nixpkgs_packages known_mappings := by
  have hsorted : List.Sorted mappingLe
      (correlate flathub_components nixpkgs_packages known_mappings) :=
    List.sorted_insertionSort mappingLe _
  constructor
  · refine List.Pairwise.chain' (hsorted.imp ?_)
    intro a b hab
    rcases hab with h | ⟨e, s⟩
    · exact ⟨le_of_lt h, fun he => absurd he.symm (ne_of_lt h)⟩
    · exact ⟨le_of_eq e.symm, fun _ => s⟩
  · exact hsorted.insertionSort_eq

/-- C4: override supremacy — for an identifier with a Phase A mapping
or not, a valid override rule (identifier among the catalog components,
attribute among the registry packages) makes the final mapping for that
identifier carry the override's attribute, confidence 1 and reason
"override mapping"; and when an override replaces a mapping with a
different attribute name, the replaced attribute claim is released by
that step. -/
theorem override_supremacy
    (flathub_components : List (String × FlathubComponent))
    (nixpkgs_packages : List NixPackage) (known_mappings : List (String × String))
    (fid attr : String)
    (hkeys : (flathub_components.map Prod.fst).Nodup)
    (hov : (known_mappings.map Prod.fst).Nodup)
    (hrule : (fid, attr) ∈ known_mappings)
    (hcomp : fid ∈ flathub_components.map Prod.fst)
    (hpkg : ∃ p ∈ nixpkgs_packages, p.attr = attr) :
    ((∃ m ∈ correlate flathub_components nixpkgs_packages known_mappings,
        m.flathub_id = fid) ∧
      (∀ m ∈ correlate flathub_components nixpkgs_packages known_mappings,
        m.flathub_id = fid →
          m.nixpkgs_attr = attr ∧ m.confidence = 1 ∧
            m.match_reason = "override mapping")) ∧
    (∀ (st : CorrState) (existing : AppStreamMapping),
      st.matchedNixAttrs.Nodup →
      st.mappings.find? (fun m => m.flathub_id == fid) = some existing →
      existing.nixpkgs_attr ≠ attr →
      existing.nixpkgs_attr ∉
        (phaseB_step (flathub_components.map Prod.fst) nixpkgs_packages st
          (fid, attr)).matchedNixAttrs) := by
  constructor
  · have hOA := foldB_overApplied (flathub_components.map Prod.fst) nixpkgs_packages
      known_mappings (correlatePhaseA flathub_components nixpkgs_packages) fid attr
      hov hrule (correlatePhaseA_ids _ _ hkeys) (by simpa using hcomp) hpkg
    obtain ⟨⟨m0, hm0, hf0⟩, hall⟩ := hOA
    constructor
    · exact ⟨m0, (sortMappings_perm _).mem_iff.mpr hm0, hf0⟩
    · intro m hm hfid
      exact hall m ((sortMappings_perm _).subset hm) hfid
  · intro st existing hndattrs hfindm hneq
    have hsome : (nixpkgs_packages.find? (fun p => p.attr == attr)).isSome := by
      refine List.find?_isSome.mpr ?_
      obtain ⟨p, hp1, hp2⟩ := hpkg
      exact ⟨p, hp1, by simp [hp2]⟩
    obtain ⟨pkg0, hfind0⟩ := Option.isSome_iff_exists.mp hsome
    unfold phaseB_step
    simp only [hfind0]
    rw [if_neg (by simp [hcomp])]
    simp only [hfindm]
    rw [if_pos hneq]
    intro hmem
    rcases List.mem_insert_iff.mp hmem with h | h
    · exact hneq h
    · exact hndattrs.not_mem_erase h

/-- C8: report summarizer — the report's totals are the input sizes,
its coverage percentage is mappings over components times 100 (0 for an
empty component set), and the confidence tiers count override (= 1.0),
high (0.9 to below 1.0), medium (0.6 to below 0.9) and low (below 0.6)
mappings. -/
theorem report_summarizer_fields (mappings : List AppStreamMapping)
    (flathub_components : List (String × FlathubComponent)) :
    (generate_report mappings flathub_components).total_flathub_components =
        flathub_components.length ∧
    (generate_report mappings flathub_components).total_mappings = mappings.length ∧
    (flathub_components = [] →
      (generate_report mappings flathub_components).coverage_percent = 0) ∧
    (flathub_components ≠ [] →
      (generate_report mappings flathub_components).coverage_percent =
        (mappings.length : ℚ) / (flathub_components.length : ℚ) * 100) ∧
    (generate_report mappings flathub_components).by_confidence_override =
      mappings.countP (fun m => decide (m.confidence = 1)) ∧
    (generate_report mappings flathub_components).by_confidence_high =
      mappings.countP (fun m => decide (mkRat 9 10 ≤ m.confidence ∧ m.confidence < 1)) ∧
    (generate_report mappings flathub_components).by_confidence_medium =
      mappings.countP (fun m =>
        decide (mkRat 6 10 ≤ m.confidence ∧ m.confidence < mkRat 9 10)) ∧
    (generate_report mappings flathub_components).by_confidence_low =
      mappings.countP (fun m => decide (m.confidence < mkRat 6 10)) := by
  refine ⟨rfl, rfl, ?_, ?_, ?_, ?_, ?_, ?_⟩
  · intro h
    subst h
    rfl
  · intro h
    have hlen : flathub_components.length ≠ 0 := fun hh => h (List.length_eq_zero.mp hh)
    simp only [generate_report]
    rw [if_neg hlen]
  · simp only [generate_report, List.countP_eq_length_filter]
    congr 1
  · simp only [generate_report, List.countP_eq_length_filter]
    congr 1
    apply List.filter_congr
    intro m _
    by_cases h1 : mkRat 9 10 ≤ m.confidence <;> by_cases h2 : m.confidence < 1 <;>
      simp [h1, h2]
  · simp only [generate_report, List.countP_eq_length_filter]
    congr 1
    apply List.filter_congr
    intro m _
    by_cases h1 : mkRat 6 10 ≤ m.confidence <;> by_cases h2 : m.confidence < mkRat 9 10 <;>
      simp [h1, h2]
  · simp only [generate_report, List.countP_eq_length_filter]

/-- C9: homepage failure degradation — the homepage-corroboration check
returns `false` for an empty homepage and for any homepage on which the
URL parsing fails, so a malformed homepage degrades the candidate
instead of aborting the run. -/
theorem homepage_failure_degradation (homepage : String) (flathub_parts : List String) :
    (homepage = "" → check_homepage_match homepage flathub_parts = false) ∧
    (extractUrl homepage = none → check_homepage_match homepage flathub_parts = false) := by
  constructor
  · intro h
    subst h
    rfl
  · intro h
    unfold check_homepage_match
    by_cases hb : (homepage == "") = true
    · rw [if_pos hb]
    · rw [if_neg hb, h]

/-- C10: generic domain corroboration — when the resolved domain is not
a forge domain and the (subdomain, domain) pair is not a special forge
pair, the homepage corroborates exactly when the lowercased domain, or
a non-empty non-"www" lowercased subdomain, occurs among the identifier
segments excluding the last; a domain equal only to the short name
never corroborates. -/
theorem generic_domain_corroboration
    (homepage : String) (ext : UrlExtract) (flathub_parts : List String)
    (hne : homepage ≠ "")
    (hext : extractUrl homepage = some ext)
    (hsub : GIT_SUBDOMAINS.find? (fun e =>
        lowerStr ext.subdomain == e.1.1 && lowerStr ext.domain == e.1.2) = none)
    (hdom : GIT_PLATFORMS.find? (fun e => lowerStr ext.domain == e.1) = none) :
    (check_homepage_match homepage flathub_parts = true ↔
      (lowerStr ext.domain ∈ flathub_parts.dropLast ∨
        (lowerStr ext.subdomain ≠ "" ∧ lowerStr ext.subdomain ≠ "www" ∧
          lowerStr ext.subdomain ∈ flathub_parts.dropLast))) := by
  unfold check_homepage_match
  rw [if_neg (by simp [hne])]
  rw [hext]
  unfold checkExtract
  simp only [hsub, hdom]
  simp
  tauto

/-- C1 (amended): forge prefix-only acceptance — for a homepage whose
resolved domain is a forge domain, the identifier's first two segments
joined with "." being equal to the forge's two-segment identifier start
already makes the homepage a match, for identifiers of any length and
regardless of the username check. -/
theorem forge_prefix_only_accepts
    (homepage : String) (ext : UrlExtract) (flathub_parts : List String)
    (entry : String × String)
    (hne : homepage ≠ "")
    (hext : extractUrl homepage = some ext)
    (hsub : GIT_SUBDOMAINS.find? (fun e =>
        lowerStr ext.subdomain == e.1.1 && lowerStr ext.domain == e.1.2) = none)
    (hdom : GIT_PLATFORMS.find? (fun e => lowerStr ext.domain == e.1) = some entry)
    (hpre : strJoin "." (flathub_parts.take 2) = entry.2) :
    check_homepage_match homepage flathub_parts = true := by
  unfold check_homepage_match
  rw [if_neg (by simp [hne])]
  rw [hext]
  unfold checkExtract
  simp only [hsub, hdom]
  unfold forgeCheck
  simp [hpre]

/-- C6 (amended): identifier decomposition — splitting happens on the
dots of the lowercased identifier with empty segments kept (joining the
segments with "." recovers the whole lowercased identifier), the
segment list is never empty, and an identifier with fewer than 2
segments (empty segments included) is skipped without a mapping. -/
theorem identifier_decomposition
    (flathub_id : String) (nixpkgs_packages : List NixPackage) (st : CorrState) :
    decomposeId flathub_id ≠ [] ∧
    strJoin "." (decomposeId flathub_id) = lowerStr flathub_id ∧
    ((decomposeId flathub_id).length < 2 →
      phaseA_step nixpkgs_packages st flathub_id = st) := by
  refine ⟨?_, ?_, ?_⟩
  · unfold decomposeId pySplit
    simp [splitChars_ne_nil]
  · unfold decomposeId pySplit
    have h1 := strJoin_mk '.' (splitChars '.' (lowerStr flathub_id).data)
      (splitChars_ne_nil '.' _)
    have h2 := joinSep_splitChars '.' (lowerStr flathub_id).data
    have hdata : (strJoin "."
        ((splitChars '.' (lowerStr flathub_id).data).map String.mk)).data
        = (lowerStr flathub_id).data := by
      rw [show ("." : String) = String.mk ['.'] from rfl, h1, h2]
    exact String.ext hdata
  · intro h
    simp only [phaseA_step]
    rw [if_pos h]

/-! ### Counterexamples and witnesses -/

/-- C1 (counterexample): for identifier `net.sourceforge.oldtool` with
registry short name `oldtool` and homepage
`https://sourceforge.net/projects/oldtool`, the code treats the
homepage as a match through the prefix-only forge branch although the
identifier has 3 segments, so the run emits a forge-corroborated 0.95
mapping — not the claimed short-name-only 0.70. -/
theorem sourceforge_oldtool_corroborated :
    check_homepage_match "https://sourceforge.net/projects/oldtool"
      ["net", "sourceforge", "oldtool"] = true ∧
    correlate
      [("net.sourceforge.oldtool", ⟨"net.sourceforge.oldtool", "Old Tool", "", "", none⟩)]
      [⟨"oldtool", "oldtool", "1.0", "", "https://sourceforge.net/projects/oldtool", ""⟩]
      [] =
      [⟨"net.sourceforge.oldtool", "oldtool", "1.0", mkRat 95 100,
        "pname \x27oldtool\x27 + homepage match"⟩] := by
  decide

/-- C1 (witness): the amended prefix-only branch at the sourceforge
example. -/
theorem forge_prefix_only_accepts_witness :
    check_homepage_match "https://sourceforge.net/projects/oldtool"
      ["net", "sourceforge", "oldtool"] = true :=
  forge_prefix_only_accepts "https://sourceforge.net/projects/oldtool"
    ⟨"", "sourceforge", "/projects/oldtool"⟩ ["net", "sourceforge", "oldtool"]
    ("sourceforge", "net.sourceforge") (by decide) (by decide) (by decide) (by decide)
    (by decide)

/-- C3 (witness): at-most-one-per-identifier at a one-component run. -/
theorem at_most_one_mapping_per_identifier_witness :
    ((correlatePhaseA [("org.x.a", ⟨"org.x.a", "A", "", "", none⟩)]
        [⟨"a", "a", "1", "", "", ""⟩]).mappings.map (fun m => m.flathub_id)).Nodup ∧
    ((correlate [("org.x.a", ⟨"org.x.a", "A", "", "", none⟩)]
        [⟨"a", "a", "1", "", "", ""⟩] []).map (fun m => m.flathub_id)).Nodup :=
  at_most_one_mapping_per_identifier _ _ _ (by decide)

/-- C4 (witness): override supremacy at the spec's Example 5 run. -/
theorem override_supremacy_witness :
    ((∃ m ∈ correlate
        [("com.example.App", ⟨"com.example.App", "App", "", "", none⟩)]
        [⟨"oldattr", "app", "2", "", "", ""⟩, ⟨"exampleapp", "zzz", "3", "", "", ""⟩]
        [("com.example.App", "exampleapp")], m.flathub_id = "com.example.App") ∧
      (∀ m ∈ correlate
        [("com.example.App", ⟨"com.example.App", "App", "", "", none⟩)]
        [⟨"oldattr", "app", "2", "", "", ""⟩, ⟨"exampleapp", "zzz", "3", "", "", ""⟩]
        [("com.example.App", "exampleapp")], m.flathub_id = "com.example.App" →
          m.nixpkgs_attr = "exampleapp" ∧ m.confidence = 1 ∧
            m.match_reason = "override mapping")) ∧
    (∀ (st : CorrState) (existing : AppStreamMapping),
      st.matchedNixAttrs.Nodup →
      st.mappings.find? (fun m => m.flathub_id == "com.example.App") = some existing →
      existing.nixpkgs_attr ≠ "exampleapp" →
      existing.nixpkgs_attr ∉
        (phaseB_step ["com.example.App"]
          [⟨"oldattr", "app", "2", "", "", ""⟩, ⟨"exampleapp", "zzz", "3", "", "", ""⟩]
          st ("com.example.App", "exampleapp")).matchedNixAttrs) :=
  override_supremacy
    [("com.example.App", ⟨"com.example.App", "App", "", "", none⟩)]
    [⟨"oldattr", "app", "2", "", "", ""⟩, ⟨"exampleapp", "zzz", "3", "", "", ""⟩]
    [("com.example.App", "exampleapp")] "com.example.App" "exampleapp"
    (by decide) (by decide) (by decide) (by decide)
    ⟨⟨"exampleapp", "zzz", "3", "", "", ""⟩, by decide, rfl⟩

/-- C5 (witness): confidence bounds at a concrete pname-only match. -/
theorem confidence_bounds_witness :
    ((⟨"org.x.a", "a", "1", mkRat 7 10, "pname \x27a\x27 match"⟩ :
        AppStreamMapping).confidence = mkRat 6 10 ∨
      (⟨"org.x.a", "a", "1", mkRat 7 10, "pname \x27a\x27 match"⟩ :
        AppStreamMapping).confidence = mkRat 7 10 ∨
      (⟨"org.x.a", "a", "1", mkRat 7 10, "pname \x27a\x27 match"⟩ :
        AppStreamMapping).confidence = mkRat 9 10 ∨
      (⟨"org.x.a", "a", "1", mkRat 7 10, "pname \x27a\x27 match"⟩ :
        AppStreamMapping).confidence = mkRat 95 100 ∨
      (⟨"org.x.a", "a", "1", mkRat 7 10, "pname \x27a\x27 match"⟩ :
        AppStreamMapping).confidence = 1) ∧
    ((⟨"org.x.a", "a", "1", mkRat 7 10, "pname \x27a\x27 match"⟩ :
        AppStreamMapping).confidence = 1 ∨
      (mkRat 6 10 ≤ (⟨"org.x.a", "a", "1", mkRat 7 10, "pname \x27a\x27 match"⟩ :
          AppStreamMapping).confidence ∧
        (⟨"org.x.a", "a", "1", mkRat 7 10, "pname \x27a\x27 match"⟩ :
          AppStreamMapping).confidence ≤ mkRat 95 100)) :=
  confidence_bounds [("org.x.a", ⟨"org.x.a", "A", "", "", none⟩)]
    [⟨"a", "a", "1", "", "", ""⟩] []
    ⟨"org.x.a", "a", "1", mkRat 7 10, "pname \x27a\x27 match"⟩ (by decide)

/-- C6 (counterexample): empty segments are kept, not discarded — the
identifier `a.b.` decomposes with a trailing empty segment, and the
identifier `a.` (one non-empty segment, hence unmatchable per the
claim) still produces a mapping against a registry package whose pname
is the empty string. -/
theorem empty_segments_kept :
    decomposeId "a.b." = ["a", "b", ""] ∧
    correlate [("a.", ⟨"a.", "", "", "", none⟩)] [⟨"x", "", "1", "", "", ""⟩] [] =
      [⟨"a.", "x", "1", mkRat 7 10, "pname \x27\x27 match"⟩] := by
  decide

/-- C6 (witness): decomposition facts at the one-segment identifier
`a`. -/
theorem identifier_decomposition_witness :
    decomposeId "a" ≠ [] ∧
    strJoin "." (decomposeId "a") = lowerStr "a" ∧
    phaseA_step [] ⟨[], [], []⟩ "a" = ⟨[], [], []⟩ :=
  ⟨(identifier_decomposition "a" [] ⟨[], [], []⟩).1,
   (identifier_decomposition "a" [] ⟨[], [], []⟩).2.1,
   (identifier_decomposition "a" [] ⟨[], [], []⟩).2.2 (by decide)⟩

/-- C8 (witness): report fields at a one-mapping, one-component run and
the empty-component coverage case. -/
theorem report_summarizer_fields_witness :
    (generate_report [⟨"org.x.a", "a", "1", mkRat 7 10, "m"⟩]
        [("org.x.a", ⟨"org.x.a", "A", "", "", none⟩)]).total_flathub_components =
      [("org.x.a", (⟨"org.x.a", "A", "", "", none⟩ : FlathubComponent))].length ∧
    (generate_report [⟨"org.x.a", "a", "1", mkRat 7 10, "m"⟩]
        [("org.x.a", ⟨"org.x.a", "A", "", "", none⟩)]).coverage_percent =
      (([(⟨"org.x.a", "a", "1", mkRat 7 10, "m"⟩ : AppStreamMapping)].length : ℚ)) /
        (([("org.x.a", (⟨"org.x.a", "A", "", "", none⟩ : FlathubComponent))].length : ℚ)) *
        100 ∧
    (generate_report [⟨"org.x.a", "a", "1", mkRat 7 10, "m"⟩]
        [("org.x.a", ⟨"org.x.a", "A", "", "", none⟩)]).by_confidence_medium =
      [(⟨"org.x.a", "a", "1", mkRat 7 10, "m"⟩ : AppStreamMapping)].countP
        (fun m => decide (mkRat 6 10 ≤ m.confidence ∧ m.confidence < mkRat 9 10)) ∧
    (generate_report [] ([] : List (String × FlathubComponent))).coverage_percent = 0 :=
  ⟨(report_summarizer_fields [⟨"org.x.a", "a", "1", mkRat 7 10, "m"⟩]
      [("org.x.a", ⟨"org.x.a", "A", "", "", none⟩)]).1,
   (report_summarizer_fields [⟨"org.x.a", "a", "1", mkRat 7 10, "m"⟩]
      [("org.x.a", ⟨"org.x.a", "A", "", "", none⟩)]).2.2.2.1 (by decide),
   (report_summarizer_fields [⟨"org.x.a", "a", "1", mkRat 7 10, "m"⟩]
      [("org.x.a", ⟨"org.x.a", "A", "", "", none⟩)]).2.2.2.2.2.2.1,
   (report_summarizer_fields [] []).2.2.1 rfl⟩

/-- C9 (witness): the empty homepage and an unparsable homepage both
fail the corroboration check. -/
theorem homepage_failure_degradation_witness :
    check_homepage_match "" ["org", "x"] = false ∧
    check_homepage_match "::::" ["org", "x"] = false :=
  ⟨(homepage_failure_degradation "" ["org", "x"]).1 rfl,
   (homepage_failure_degradation "::::" ["org", "x"]).2 (by decide)⟩

/-- C10 (witness): generic corroboration succeeds on a domain among the
leading identifier segments and fails when the domain matches only the
short name. -/
theorem generic_domain_corroboration_witness :
    check_homepage_match "https://mozilla.org/firefox"
      ["org", "mozilla", "firefox"] = true ∧
    check_homepage_match "https://oldtool.io" ["net", "x", "oldtool"] = false :=
  ⟨(generic_domain_corroboration "https://mozilla.org/firefox"
      ⟨"", "mozilla", "/firefox"⟩ ["org", "mozilla", "firefox"]
      (by decide) (by decide) (by decide) (by decide)).mpr (Or.inl (by decide)),
   by
     have h := generic_domain_corroboration "https://oldtool.io" ⟨"", "oldtool", ""⟩
       ["net", "x", "oldtool"] (by decide) (by decide) (by decide) (by decide)
     cases hb : check_homepage_match "https://oldtool.io" ["net", "x", "oldtool"]
     · rfl
     · exact absurd (h.mp hb) (by decide)⟩

end AppStream
